import Mathlib

/-!
# Verification of the feed-assembly core of `xazalea/oxygen`

Shallow embedding, in Lean 4, of the list-transformation pipeline of the
repository: the failure-mode handler (`src/lib/utils/failure_modes.py`), the
cold-start / virality engine (`src/lib/ranking/cold_start.py`), the
exploration stack (`src/lib/ranking/exploration.py`) and the
session-continuation maximizer (`src/lib/addiction/addiction_engine.py`).

Conventions of the embedding:
* Python floats are modelled as exact rationals (`ℚ`); `int(x)` applied to a
  non-negative product is `Int.floor` followed by `Int.toNat`.
* numpy vectors are `List ℚ`; dictionaries are association lists
  `List (Int × _)` or partial functions `Int → Option _`.
* Cosine-similarity threshold tests `sim > t` / `sim < t` (with `t > 0`,
  the only thresholds used by the code: 0.5, 0.7, 0.8) are encoded without
  square roots by comparing squares, which is exactly equivalent over the
  reals; a zero-norm vector makes the numpy quotient NaN, whose comparisons
  are all false, and the encodings below return `false` in that case too.
* `random.sample`, `random.randint` and Python set-iteration order are
  nondeterministic primitives; functions using them take the corresponding
  choice function as an explicit oracle argument.
* The record types of `lib/data/schemas.py` (not part of the source tree)
  are reconstructed from the fields the embedded modules read and write.
-/

namespace Oxygen

open Matrix

/-- Interaction event, fields as read by the embedded modules
(`watch_time`, `completion_rate`, `skip`, `like`, `comment`, `share`,
`timestamp`, `user_id`, `video_id`). -/
structure Interaction where
  user_id : Int
  video_id : Int
  timestamp : Nat
  watch_time : ℚ
  completion_rate : ℚ
  skip : Bool
  like : Bool
  comment : Bool
  share : Bool
deriving DecidableEq, Repr

/-- Video features, fields as read by the embedded modules. -/
structure VideoFeatures where
  category : Option String
  content_embedding : Option (List ℚ)
deriving DecidableEq, Repr

/-- A ranked candidate. `ranking_score` is the mutable composite score. -/
structure RankingCandidate where
  video_id : Int
  ranking_score : ℚ
  video_features : VideoFeatures
  continuation_score : ℚ
deriving DecidableEq, Repr

/-- User features: the three horizon embeddings read by `_get_context`. -/
structure UserFeatures where
  user_id : Int
  short_term_embedding : Option (List ℚ)
  mid_term_embedding : Option (List ℚ)
  long_term_embedding : Option (List ℚ)
deriving DecidableEq, Repr

/-! ## Vector helpers (numpy operations on `List ℚ`) -/

/-- `np.dot` of two equal-length vectors. -/
def dotL (a b : List ℚ) : ℚ := ((a.zip b).map (fun p => p.1 * p.2)).sum

/-- Squared Euclidean norm, `np.linalg.norm(a)**2`. -/
def sqnorm (a : List ℚ) : ℚ := dotL a a

/-- Exact encoding of the numpy test
`np.dot(a,b)/(np.linalg.norm(a)*np.linalg.norm(b)) > t` for a threshold
`t ≥ 0`.  Equivalent over ℝ to `dot > 0 ∧ dot² > t²·|a|²·|b|²` when both
norms are nonzero; NaN (a zero norm) compares false. -/
def cossimGT (a b : List ℚ) (t : ℚ) : Bool :=
  decide (sqnorm a ≠ 0) && decide (sqnorm b ≠ 0) &&
    decide (0 < dotL a b) && decide (t ^ 2 * (sqnorm a * sqnorm b) < dotL a b ^ 2)

/-- Exact encoding of the numpy test
`np.dot(a,b)/(np.linalg.norm(a)*np.linalg.norm(b)) < t` for a threshold
`t > 0`; NaN (a zero norm) compares false. -/
def cossimLT (a b : List ℚ) (t : ℚ) : Bool :=
  decide (sqnorm a ≠ 0) && decide (sqnorm b ≠ 0) &&
    (decide (dotL a b ≤ 0) || decide (dotL a b ^ 2 < t ^ 2 * (sqnorm a * sqnorm b)))

/-- Elementwise sum of equal-shape vectors (`np.add` on stacked rows). -/
def vaddL (a b : List ℚ) : List ℚ := (a.zip b).map (fun p => p.1 + p.2)

/-- `np.mean(vs, axis=0)` for a non-empty list of equal-shape vectors. -/
def centroidL (vs : List (List ℚ)) : List ℚ :=
  match vs with
  | [] => []
  | v :: rest => (rest.foldl vaddL v).map (· / (vs.length : ℚ))

/-- Association-list lookup (Python `dict[k]` / `k in dict`). -/
def lookupA {α : Type} : List (Int × α) → Int → Option α
  | [], _ => none
  | (k0, v) :: rest, k => if k0 = k then some v else lookupA rest k

/-- Association-list store (Python `dict[k] = v`). -/
def setA {α : Type} : List (Int × α) → Int → α → List (Int × α)
  | [], k, v => [(k, v)]
  | (k0, v0) :: rest, k, v =>
      if k0 = k then (k, v) :: rest else (k0, v0) :: setA rest k v

/-- Stable descending insertion for `sortDesc`. -/
def insertDesc {α : Type} (key : α → ℚ) (c : α) : List α → List α
  | [] => [c]
  | x :: xs => if key x ≤ key c then c :: x :: xs else x :: insertDesc key c xs

/-- Python `sorted(l, key=key, reverse=True)`: the stable descending sort
(equal keys keep their input order, so this agrees with CPython's timsort
as a function). -/
def sortDesc {α : Type} (key : α → ℚ) (l : List α) : List α :=
  l.foldr (insertDesc key) []

/-- Python `l[-n:]`. -/
def lastN {α : Type} (n : ℕ) (l : List α) : List α := l.drop (l.length - n)

/-! ## `EngagementFarmingDetector` (`failure_modes.py` lines 18–139)

`bot_threshold` defaults to 0.95 and `coordinated_threshold` to 10; the
pipeline instantiates the detector with the defaults, which are inlined
here. -/

/-- Fraction of interactions satisfying `p` (`sum(...)/len(...)`). -/
def rate (p : Interaction → Bool) (l : List Interaction) : ℚ :=
  ((l.countP p : ℚ)) / (l.length : ℚ)

/-- `EngagementFarmingDetector._has_bot_pattern`. -/
def hasBotPattern (l : List Interaction) : Bool :=
  if l.length < 5 then false
  else if decide (rate (·.skip) l < 5/100) && decide (95/100 < rate (·.like) l) then true
  else if decide (((l.map (·.watch_time)).dedup.length : ℚ) < (l.length : ℚ) * (1/10)) then true
  else false

/-- `EngagementFarmingDetector._has_engagement_farming`. -/
def hasEngagementFarming (l : List Interaction) : Bool :=
  if l.length < 10 then false
  else decide (8/10 < rate (·.like) l) && decide (rate (·.comment) l < 1/10)
    && decide (rate (·.share) l < 1/10)

/-- `EngagementFarmingDetector._has_coordinated_activity`: some 1-hour
bucket holds at least 10 interactions whose distinct users number less
than half the bucket.  Iterating over the interactions and filtering the
bucket of each realizes the same existential as Python's grouping dict. -/
def hasCoordinatedActivity (l : List Interaction) : Bool :=
  if l.length < 10 then false
  else l.any (fun i =>
    let w := i.timestamp / 3600
    let bucket := l.filter (fun j => j.timestamp / 3600 = w)
    decide (10 ≤ bucket.length) &&
      decide (2 * ((bucket.map (·.user_id)).dedup.length) < bucket.length))

/-- `EngagementFarmingDetector.detect`: returns `(spam_score, signals)`. -/
def detect (l : List Interaction) : ℚ × List String :=
  if l.length = 0 then (0, [])
  else
    let s1 := hasBotPattern l
    let s2 := hasEngagementFarming l
    let s3 := hasCoordinatedActivity l
    ((if s1 then 33/100 else 0) + (if s2 then 33/100 else 0) + (if s3 then 34/100 else 0),
     (if s1 then ["bot_pattern"] else []) ++ (if s2 then ["engagement_farming"] else [])
       ++ (if s3 then ["coordinated"] else []))

/-! ## `FailureModeHandler.suppress_spam` (`failure_modes.py` lines 415–446) -/

/-- Body of the `suppress_spam` loop for one candidate: penalize the score
by `(1 - spam_score * penalty_factor)` when the video has interactions and
a positive spam score. -/
def suppressOne (vi : Int → Option (List Interaction)) (penalty : ℚ)
    (c : RankingCandidate) : RankingCandidate :=
  match vi c.video_id with
  | none => c
  | some l =>
      let s := (detect l).1
      if 0 < s then { c with ranking_score := c.ranking_score * (1 - s * penalty) }
      else c

/-- `FailureModeHandler.suppress_spam` (default `penalty_factor = 0.5`):
penalize every candidate, then re-sort by score descending. -/
def suppressSpam (vi : Int → Option (List Interaction)) (penalty : ℚ)
    (cands : List RankingCandidate) : List RankingCandidate :=
  sortDesc (·.ranking_score) (cands.map (suppressOne vi penalty))

/-! ## `LoopExploitationDetector.enforce_temporal_diversity`
(`failure_modes.py` lines 201–251) -/

/-- The filtering loop of `enforce_temporal_diversity`: drop recently-seen
video ids; for candidates with an embedding, greedily drop those more than
`minSim`-similar to an already-accepted embedding; candidates without an
embedding always pass and contribute no embedding. -/
def tdGo (recentIds : List Int) (emb : Int → Option (List ℚ)) (minSim : ℚ) :
    List RankingCandidate → List (List ℚ) → List RankingCandidate
  | [], _ => []
  | c :: cs, seen =>
      if c.video_id ∈ recentIds then tdGo recentIds emb minSim cs seen
      else
        match emb c.video_id with
        | some e =>
            if seen.any (fun s0 => cossimGT e s0 minSim) then tdGo recentIds emb minSim cs seen
            else c :: tdGo recentIds emb minSim cs (seen ++ [e])
        | none => c :: tdGo recentIds emb minSim cs seen

/-- `enforce_temporal_diversity` (default `min_similarity = 0.7`): the
recently-seen set is the video ids of the last 20 interactions. -/
def enforceTemporalDiversity (cands : List RankingCandidate)
    (recent : List Interaction) (emb : Int → Option (List ℚ))
    (minSim : ℚ) : List RankingCandidate :=
  tdGo ((lastN 20 recent).map (·.video_id)) emb minSim cands []

/-! ## `OverPersonalizationDetector.enforce_category_diversity`
(`failure_modes.py` lines 310–339) -/

/-- The capping loop of `enforce_category_diversity`, carrying the
categories admitted so far (Python's `Counter`). Uncategorized candidates
always pass and are not counted. -/
def ccGo (maxPer : ℕ) : List RankingCandidate → List String → List RankingCandidate
  | [], _ => []
  | c :: cs, taken =>
      match c.video_features.category with
      | none => c :: ccGo maxPer cs taken
      | some k =>
          if taken.count k < maxPer then c :: ccGo maxPer cs (k :: taken)
          else ccGo maxPer cs taken

/-- `enforce_category_diversity` (default `max_per_category = 3`). -/
def enforceCategoryDiversity (cands : List RankingCandidate) (maxPer : ℕ) :
    List RankingCandidate :=
  ccGo maxPer cands []

/-- `FailureModeHandler.enforce_diversity`: temporal diversity with the
default threshold 0.7, then the per-category cap of 3. -/
def enforceDiversity (cands : List RankingCandidate)
    (hist : List Interaction) (emb : Int → Option (List ℚ)) : List RankingCandidate :=
  enforceCategoryDiversity (enforceTemporalDiversity cands hist emb (7/10)) 3

/-! ## `ColdStartEngine` (`cold_start.py` lines 15–247) -/

/-- Per-cohort baseline metrics (`cohort_baselines` values). -/
structure CohortBaseline where
  watch_time_avg : ℚ
  completion_rate : ℚ
  skip_rate : ℚ
deriving DecidableEq, Repr

/-- Per-video cold-start state (`video_states` values).  `exposed_users`
is `none` while the `"exposed_users"` key is absent from the Python dict;
the Python `set` is modelled by its member list (order and multiplicity
immaterial to every claim). -/
structure ColdStartState where
  cohort_id : Int
  cohort : List Int
  exposure_count : ℕ
  interactions : List Interaction
  performance_score : ℚ
  stage : String
  exposed_users : Option (List Int)
deriving DecidableEq, Repr

/-- `ColdStartEngine` configuration and mutable state.  Defaults:
`expansion_threshold = 1.2`, `expansion_factor = 2.0`, `decay_factor = 0.9`. -/
structure ColdStartEngine where
  initial_cohort_size : ℕ
  expansion_threshold : ℚ
  expansion_factor : ℚ
  decay_factor : ℚ
  video_states : List (Int × ColdStartState)
  cohort_baselines : List (Int × CohortBaseline)
deriving Repr

/-- `np.mean` of the listed values of a non-empty interaction list. -/
def meanQ (l : List ℚ) : ℚ := l.sum / (l.length : ℚ)

/-- `ColdStartEngine.normalize_performance`: average watch time,
completion and skip rate, each divided by the cohort baseline (guarded
against non-positive baselines; skip normalization defaults to 1),
combined as `0.4*watch + 0.4*completion - 0.2*skip`; records the score and
the sample in the video state.  An unknown `video_id` or empty sample
yields 0.0.  A baseline missing for a stored `cohort_id` would raise
`KeyError` in Python but is unreachable through the engine's API
(`initial_exposure` always seeds it); it is totalized to 0.0 here. -/
def normalizePerformance (e : ColdStartEngine) (vid : Int)
    (l : List Interaction) : ℚ × ColdStartEngine :=
  match lookupA e.video_states vid with
  | none => (0, e)
  | some st =>
      match lookupA e.cohort_baselines st.cohort_id with
      | none => (0, e)
      | some base =>
          if l.length = 0 then (0, e)
          else
            let avgWatch := meanQ (l.map (·.watch_time))
            let avgCompletion := meanQ (l.map (·.completion_rate))
            let avgSkip := meanQ (l.map (fun i => if i.skip then 1 else 0))
            let normWatch := if 0 < base.watch_time_avg then avgWatch / base.watch_time_avg else 0
            let normCompletion :=
              if 0 < base.completion_rate then avgCompletion / base.completion_rate else 0
            let normSkip := if 0 < base.skip_rate then avgSkip / base.skip_rate else 1
            let score := normWatch * (4/10) + normCompletion * (4/10) - normSkip * (2/10)
            let st' := { st with performance_score := score, interactions := l }
            (score, { e with video_states := setA e.video_states vid st' })

/-- Python `lst[:n]` for a possibly negative `n`. -/
def pyTake {α : Type} (n : Int) (l : List α) : List α :=
  if 0 ≤ n then l.take n.toNat else l.take (l.length - n.natAbs)

/-- `ColdStartEngine.viral_expansion`.  `sample` is the `random.sample`
oracle (its second argument is Python's `min(new_exposures, len(pool))`),
`senum` the iteration order of the Python `set` of similar users.  When
the performance score exceeds the threshold, exposure grows to
`int(exposure * expansion_factor)` and new users are selected (similar to
the top-10 engaged exposed users when a similarity map is supplied, else
randomly); otherwise exposure shrinks to `int(exposure * decay_factor)`
and no users are emitted.  Unknown `video_id` yields `([], e)`. -/
def viralExpansion (e : ColdStartEngine) (vid : Int) (pool : List Int)
    (simMap : Option (Int → Option (List Int)))
    (sample : List Int → Int → List Int) (senum : List Int → List Int) :
    List Int × ColdStartEngine :=
  match lookupA e.video_states vid with
  | none => ([], e)
  | some st =>
      let current := st.exposure_count
      if e.expansion_threshold < st.performance_score then
        let next : ℕ := (⌊(current : ℚ) * e.expansion_factor⌋).toNat
        let newExposures : Int := (next : Int) - (current : Int)
        let newUsers :=
          match simMap with
          | some sm =>
              let engaged := (st.interactions.filter
                (fun i => decide (1/2 < i.watch_time) && !i.skip)).map (·.user_id)
              if 0 < engaged.length then
                let gathered := (engaged.take 10).foldl
                  (fun acc u => acc ++ ((sm u).getD []).take 20) []
                let exposed := st.exposed_users.getD []
                let available := (senum gathered).filter
                  (fun u => pool.contains u && !(exposed.contains u))
                pyTake newExposures available
              else sample pool (min newExposures (pool.length : Int))
          | none => sample pool (min newExposures (pool.length : Int))
        let st' := { st with
          exposure_count := next
          stage := "expanding"
          exposed_users := some ((st.exposed_users.getD st.cohort) ++ newUsers) }
        (newUsers, { e with video_states := setA e.video_states vid st' })
      else
        let st' := { st with
          exposure_count := (⌊(current : ℚ) * e.decay_factor⌋).toNat
          stage := "decaying" }
        ([], { e with video_states := setA e.video_states vid st' })

/-! ## `NoveltyInjector` (`exploration.py` lines 252–330) -/

/-- The novelty budget `int(session_length * novelty_rate)` (default rate
0.15). -/
def noveltyBudget (rate : ℚ) (sessionLength : ℕ) : ℕ :=
  (⌊(sessionLength : ℚ) * rate⌋).toNat

/-- Embeddings of the last 50 interactions that have one. -/
def historyEmbeddings (hist : List Interaction) (emb : Int → Option (List ℚ)) :
    List (List ℚ) :=
  (lastN 50 hist).filterMap (fun i => emb i.video_id)

/-- Candidates whose cosine similarity to the history centroid is below
`minSim` (default 0.5); candidates without an embedding never qualify. -/
def novelFilter (ranked : List RankingCandidate) (centroid : List ℚ)
    (emb : Int → Option (List ℚ)) (minSim : ℚ) : List RankingCandidate :=
  ranked.filter (fun c =>
    match emb c.video_id with
    | some e => cossimLT e centroid minSim
    | none => false)

/-- The insertion loop of `inject_novelty`: the `i`-th selected novel
candidate goes to `positions[i % len(positions)]`, but only when that
position is strictly below the current list length. -/
def injectLoop (positions : List ℕ) :
    List RankingCandidate → ℕ → List RankingCandidate → List RankingCandidate
  | lst, _, [] => lst
  | lst, i, nc :: rest =>
      let pos := positions.getD (i % positions.length) 0
      let lst' := if pos < lst.length then lst.insertIdx pos nc else lst
      injectLoop positions lst' (i + 1) rest

/-- `NoveltyInjector.inject_novelty`: budget `int(session_length * rate)`;
returns the list unchanged when the budget is zero or no history
embedding exists, else inserts up to `budget` novel candidates at the
strategic positions `[5, 10, 15, 20, 25]` (cyclically). -/
def injectNovelty (rate minSim : ℚ) (ranked : List RankingCandidate)
    (hist : List Interaction) (emb : Int → Option (List ℚ))
    (sessionLength : ℕ) : List RankingCandidate :=
  let budget := noveltyBudget rate sessionLength
  if budget = 0 then ranked
  else
    let hembs := historyEmbeddings hist emb
    if hembs.length = 0 then ranked
    else
      let novel := (novelFilter ranked (centroidL hembs) emb minSim).take budget
      injectLoop [5, 10, 15, 20, 25] ranked 0 novel

/-! ## `ContextualBandit` (`exploration.py` lines 15–146)

The per-arm statistics `A` (covariance) and `b` (reward vector) live in two
dicts updated in lockstep by `update`; they are modelled as one association
list of pairs.  `np.linalg.solve(A, b)` computes `A⁻¹ b` for the invertible
matrices produced by `update` (identity plus outer products); it is
embedded as multiplication by the adjugate-based inverse, which agrees
with Mathlib's `A⁻¹` over ℚ. -/

open Matrix in
/-- Computable matrix inverse over ℚ (zero matrix when singular, like
Mathlib's `Matrix.inv`). -/
def mInv {d : ℕ} (A : Matrix (Fin d) (Fin d) ℚ) : Matrix (Fin d) (Fin d) ℚ :=
  A.det⁻¹ • A.adjugate

/-- `np.linalg.solve(A, v)` for invertible `A`. -/
def solveVec {d : ℕ} (A : Matrix (Fin d) (Fin d) ℚ) (v : Fin d → ℚ) : Fin d → ℚ :=
  (mInv A).mulVec v

/-- Bandit state: exploration weight `alpha` (default 1.0) and the per-arm
`(A, b)` statistics keyed by video id. -/
structure ContextualBandit (d : ℕ) where
  alpha : ℚ
  arms : List (Int × (Matrix (Fin d) (Fin d) ℚ × (Fin d → ℚ)))

/-- `ContextualBandit._get_context`: concatenate the three user horizon
embeddings (zeros of widths 128/256/512 when absent) and the content
embedding (zeros of width 768 when absent), then zero-pad or truncate to
the context dimension; reading index `i < d` from the padded list with
default 0 realizes exactly that. -/
def getContext (d : ℕ) (uf : UserFeatures) (vf : VideoFeatures) : Fin d → ℚ :=
  let ctx := uf.short_term_embedding.getD (List.replicate 128 0)
    ++ uf.mid_term_embedding.getD (List.replicate 256 0)
    ++ uf.long_term_embedding.getD (List.replicate 512 0)
    ++ vf.content_embedding.getD (List.replicate 768 0)
  fun i => ctx.getD i 0

/-- `ContextualBandit.update`: initialize `(A, b)` to `(I, 0)` for a new
arm, then `A += outer(context, context)` and `b += reward * context`. -/
def banditUpdate {d : ℕ} (cb : ContextualBandit d) (vid : Int)
    (uf : UserFeatures) (vf : VideoFeatures) (reward : ℚ) : ContextualBandit d :=
  let x := getContext d uf vf
  let p := (lookupA cb.arms vid).getD (1, 0)
  { cb with arms := setA cb.arms vid (p.1 + Matrix.vecMulVec x x, p.2 + reward • x) }

/-- `update` iterated `n` times with the same features and reward. -/
def banditUpdateN {d : ℕ} (cb : ContextualBandit d) (vid : Int)
    (uf : UserFeatures) (vf : VideoFeatures) (reward : ℚ) : ℕ → ContextualBandit d
  | 0 => cb
  | n + 1 => banditUpdate (banditUpdateN cb vid uf vf reward n) vid uf vf reward

/-- A UCB score value: `float('inf')` for a cold-start arm, else the exact
real `e + a·√r` (exploitation plus `alpha`-scaled uncertainty, kept in
radicand form). -/
inductive UcbScore
  | inf : UcbScore
  | val (e a r : ℚ) : UcbScore
deriving DecidableEq, Repr

/-- Exact encoding of the float test `a·√r > c` for `a, r ≥ 0` (the values
arising in `select_arms`): true iff `c < 0`, or `c ≥ 0` and `a²·r > c²`. -/
def sqrtMulGT (a r c : ℚ) : Bool :=
  decide (c < 0) || (decide (0 ≤ c) && decide (c ^ 2 < a ^ 2 * r))

/-- A candidate after `select_arms` scoring: Python rewrites
`ranking_score` (possibly to `inf`), `exploration_bonus` and
`is_exploration` in place; the rewritten fields are carried alongside. -/
structure ScoredArm where
  cand : RankingCandidate
  ucb : UcbScore
  bonus : UcbScore
  is_exploration : Bool
deriving Repr

/-- Body of the `select_arms` loop for one candidate.  Without statistics
the arm gets unbounded priority (`inf`) and counts as exploration; with
statistics `θ = solve(A, b)`, exploitation `θ·x`, uncertainty
`alpha·√(x·solve(A, x))`, and `is_exploration` iff the uncertainty exceeds
10% of the exploitation. -/
def scoreArm {d : ℕ} (cb : ContextualBandit d) (uf : UserFeatures)
    (c : RankingCandidate) : ScoredArm :=
  let x := getContext d uf c.video_features
  match lookupA cb.arms c.video_id with
  | none => ⟨c, .inf, .inf, true⟩
  | some (A, b) =>
      let θ := solveVec A b
      let e := θ ⬝ᵥ x
      let r := x ⬝ᵥ solveVec A x
      ⟨c, .val e cb.alpha r, .val (e - c.ranking_score) cb.alpha r,
        sqrtMulGT cb.alpha r (e * (1/10))⟩

/-- The scoring pass of `select_arms` over a candidate list (the
subsequent descending sort and top-k truncation only reorder these
values). -/
def scoreArms {d : ℕ} (cb : ContextualBandit d) (uf : UserFeatures)
    (cands : List RankingCandidate) : List ScoredArm :=
  cands.map (scoreArm cb uf)

/-! ## `SessionContinuationMaximizer` (`addiction_engine.py` lines 192–306) -/

/-- The pacing loop of `_apply_pacing`: on sorted input `s`, at step `i`
take the next "high" element (first half) on even steps while any remain,
else the next "medium" element (second half), else a remaining high one;
`fuel` counts the remaining steps of `range(len(s))`. -/
instance : Inhabited RankingCandidate :=
  ⟨{ video_id := 0, ranking_score := 0,
     video_features := { category := none, content_embedding := none },
     continuation_score := 0 }⟩

def pacingLoop (s : List RankingCandidate) (half : ℕ) :
    ℕ → ℕ → ℕ → ℕ → List RankingCandidate
  | 0, _, _, _ => []
  | fuel + 1, i, hi, mi =>
      if i % 2 = 0 ∧ hi < half then
        s.getD hi default :: pacingLoop s half fuel (i + 1) (hi + 1) mi
      else if mi < s.length then
        s.getD mi default :: pacingLoop s half fuel (i + 1) hi (mi + 1)
      else if hi < half then
        s.getD hi default :: pacingLoop s half fuel (i + 1) (hi + 1) mi
      else pacingLoop s half fuel (i + 1) hi mi

/-- `SessionContinuationMaximizer._apply_pacing`: fewer than 3 candidates
pass through unchanged; otherwise sort descending by score and interleave
the high (first) and medium (second) halves. -/
def applyPacing (cands : List RankingCandidate) : List RankingCandidate :=
  if cands.length < 3 then cands
  else
    let s := sortDesc (·.ranking_score) cands
    pacingLoop s (s.length / 2) s.length 0 0 (s.length / 2)

/-- The insertion loop of `_apply_cliffhangers` over the strategic
positions `[3, 7, 12, 18]`: insert `top[i]` at position `pos` when both
indices are in range. -/
def chLoop (top : List RankingCandidate) :
    List ℕ → ℕ → List RankingCandidate → List RankingCandidate
  | [], _, res => res
  | pos :: ps, i, res =>
      let res' :=
        if i < top.length ∧ pos < res.length then res.insertIdx pos (top.getD i default)
        else res
      chLoop top ps (i + 1) res'

/-- `SessionContinuationMaximizer._apply_cliffhangers`: fewer than 5
candidates pass through unchanged; otherwise insert the top-ranked
candidates at positions 3, 7, 12, 18 and truncate back to the original
length. -/
def applyCliffhangers (cands : List RankingCandidate) : List RankingCandidate :=
  if cands.length < 5 then cands
  else
    let top := sortDesc (·.ranking_score) cands
    (chLoop top [3, 7, 12, 18] 0 cands).take cands.length

/-! ## Theorems

### C1 — spam suppression -/

lemma rate_eq_zero {p : Interaction → Bool} {l : List Interaction}
    (h : ∀ i ∈ l, p i = false) : rate p l = 0 := by
  unfold rate
  rw [List.countP_eq_zero.mpr (fun a ha => by simp [h a ha])]
  simp

lemma rate_eq_one {p : Interaction → Bool} {l : List Interaction}
    (hne : l.length ≠ 0) (h : ∀ i ∈ l, p i = true) : rate p l = 1 := by
  unfold rate
  rw [List.countP_eq_length.mpr (fun a ha => by simp [h a ha])]
  rw [div_self]
  exact_mod_cast hne

lemma hasBotPattern_true {l : List Interaction} (h5 : 5 ≤ l.length)
    (hs : ∀ i ∈ l, i.skip = false) (hl : ∀ i ∈ l, i.like = true) :
    hasBotPattern l = true := by
  unfold hasBotPattern
  rw [if_neg (by omega)]
  rw [rate_eq_zero hs, rate_eq_one (by omega) hl]
  norm_num

lemma hasEngagementFarming_false {l : List Interaction}
    (hne : l.length ≠ 0) (hc : ∀ i ∈ l, i.comment = true) :
    hasEngagementFarming l = false := by
  unfold hasEngagementFarming
  split
  · rfl
  · rw [rate_eq_one hne hc]
    norm_num

lemma hasCoordinatedActivity_false {l : List Interaction}
    (ht : ∀ i ∈ l, i.timestamp = 0) (hu : (l.map (·.user_id)).Nodup) :
    hasCoordinatedActivity l = false := by
  unfold hasCoordinatedActivity
  split
  · rfl
  · rw [List.any_eq_false]
    intro i hi
    have hbucket :
        l.filter (fun j => decide (j.timestamp / 3600 = i.timestamp / 3600)) = l :=
      List.filter_eq_self.mpr (fun j hj => by simp [ht j hj, ht i hi])
    simp only [hbucket, List.dedup_eq_self.mpr hu, List.length_map,
      Bool.and_eq_true, decide_eq_true_eq, not_and]
    intro _
    omega

lemma detect_lb {l : List Interaction} (h20 : 20 ≤ l.length)
    (hs : ∀ i ∈ l, i.skip = false) (hl : ∀ i ∈ l, i.like = true) :
    33/100 ≤ (detect l).1 ∧ (detect l).1 ≤ 1 := by
  unfold detect
  rw [if_neg (by omega)]
  rw [hasBotPattern_true (by omega) hs hl]
  cases hasEngagementFarming l <;> cases hasCoordinatedActivity l <;> norm_num

lemma sortDesc_perm {α : Type} (key : α → ℚ) (l : List α) :
    (sortDesc key l).Perm l := by
  induction l with
  | nil => exact List.Perm.refl _
  | cons x xs ih =>
      have hins : ∀ (c : α) (m : List α), (insertDesc key c m).Perm (c :: m) := by
        intro c m
        induction m with
        | nil => exact List.Perm.refl _
        | cons y ys ihm =>
            unfold insertDesc
            split
            · exact List.Perm.refl _
            · exact ((ihm.cons y).trans (List.Perm.swap c y ys))
      exact (hins x (sortDesc key xs)).trans (ih.cons x)

/-- C1 (amended).  For a candidate whose video has at least 20 recorded
interactions, all with `skip = false` and `like = true`, the
engagement-farming detector returns `spam_score ≥ 0.33`, and
`suppress_spam` multiplies the candidate's score by exactly
`(1 - spam_score·0.5)`, hence (for a non-negative pre-penalty score) caps
it at `0.835×` the pre-penalty score — not `0.67×` as claimed; the final
list is a descending re-sort of the penalized candidates. -/
theorem suppress_spam_penalty (vi : Int → Option (List Interaction))
    (cands : List RankingCandidate) (c : RankingCandidate) (l : List Interaction)
    (hv : vi c.video_id = some l) (h20 : 20 ≤ l.length)
    (hs : ∀ i ∈ l, i.skip = false) (hl : ∀ i ∈ l, i.like = true) :
    33/100 ≤ (detect l).1 ∧
    (suppressOne vi (1/2) c).ranking_score
      = c.ranking_score * (1 - (detect l).1 * (1/2)) ∧
    (0 ≤ c.ranking_score →
      (suppressOne vi (1/2) c).ranking_score ≤ 835/1000 * c.ranking_score) ∧
    (suppressSpam vi (1/2) cands).Perm (cands.map (suppressOne vi (1/2))) := by
  obtain ⟨hlb, hub⟩ := detect_lb h20 hs hl
  have hpos : 0 < (detect l).1 := lt_of_lt_of_le (by norm_num) hlb
  have hone : (suppressOne vi (1/2) c).ranking_score
      = c.ranking_score * (1 - (detect l).1 * (1/2)) := by
    unfold suppressOne
    rw [hv]
    simp only [if_pos hpos]
  refine ⟨hlb, hone, ?_, sortDesc_perm _ _⟩
  intro hc
  rw [hone]
  have hfac : 1 - (detect l).1 * (1/2) ≤ 835/1000 := by linarith
  calc c.ranking_score * (1 - (detect l).1 * (1/2))
      ≤ c.ranking_score * (835/1000) := by
        exact mul_le_mul_of_nonneg_left hfac hc
    _ = 835/1000 * c.ranking_score := by ring

/-- The 20 interactions of the C1 concrete instance: distinct users, all
liked, none skipped, all commented and shared (so only the bot signal
fires and `spam_score = 0.33` exactly). -/
def exInteractions : List Interaction :=
  (List.range 20).map (fun (k : ℕ) =>
    { user_id := (k : Int), video_id := 1, timestamp := 0,
      watch_time := (k : ℚ)/100, completion_rate := 1/2,
      skip := false, like := true, comment := true, share := true })

def exCandidate : RankingCandidate :=
  { video_id := 1, ranking_score := 1,
    video_features := { category := none, content_embedding := none },
    continuation_score := 0 }

def exVI : Int → Option (List Interaction) :=
  fun v => if v = 1 then some exInteractions else none

lemma exInteractions_length : exInteractions.length = 20 := by
  unfold exInteractions
  rw [List.length_map, List.length_range]

lemma exInteractions_mem {i : Interaction} (hi : i ∈ exInteractions) :
    i.skip = false ∧ i.like = true ∧ i.comment = true ∧ i.timestamp = 0 := by
  unfold exInteractions at hi
  rw [List.mem_map] at hi
  obtain ⟨k, -, rfl⟩ := hi
  exact ⟨rfl, rfl, rfl, rfl⟩

lemma exInteractions_detect : (detect exInteractions).1 = 33/100 := by
  have h1 : hasBotPattern exInteractions = true :=
    hasBotPattern_true (by rw [exInteractions_length]; omega)
      (fun i hi => (exInteractions_mem hi).1) (fun i hi => (exInteractions_mem hi).2.1)
  have h2 : hasEngagementFarming exInteractions = false :=
    hasEngagementFarming_false (by rw [exInteractions_length]; omega)
      (fun i hi => (exInteractions_mem hi).2.2.1)
  have h3 : hasCoordinatedActivity exInteractions = false := by
    refine hasCoordinatedActivity_false (fun i hi => (exInteractions_mem hi).2.2.2) ?_
    have hmap : exInteractions.map (·.user_id)
        = (List.range 20).map (fun (k : ℕ) => (k : Int)) := by
      unfold exInteractions
      rw [List.map_map]
      rfl
    rw [hmap]
    exact (List.nodup_range 20).map (fun a b h => by exact_mod_cast h)
  unfold detect
  rw [if_neg (by rw [exInteractions_length]; omega), h1, h2, h3]
  norm_num

/-- C1 counterexample: the claim's `≤ 0.67×` bound fails.  With the 20
interactions above only the bot signal fires, `spam_score = 0.33`, and
the suppressed score is `0.835 > 0.67` times the pre-penalty score 1. -/
theorem suppress_spam_claim_counterexample :
    20 ≤ exInteractions.length ∧
    (∀ i ∈ exInteractions, i.skip = false ∧ i.like = true) ∧
    exCandidate.ranking_score = 1 ∧
    suppressSpam exVI (1/2) [exCandidate]
      = [{ exCandidate with ranking_score := 167/200 }] ∧
    ¬ ((167 : ℚ)/200 ≤ 67/100 * exCandidate.ranking_score) := by
  refine ⟨by rw [exInteractions_length],
    fun i hi => ⟨(exInteractions_mem hi).1, (exInteractions_mem hi).2.1⟩,
    rfl, ?_, by norm_num [exCandidate]⟩
  have hone : suppressOne exVI (1/2) exCandidate
      = { exCandidate with ranking_score := 167/200 } := by
    unfold suppressOne
    rw [show exVI exCandidate.video_id = some exInteractions from rfl]
    simp only [exInteractions_detect]
    norm_num [exCandidate]
  have hmap : [exCandidate].map (suppressOne exVI (1/2))
      = [{ exCandidate with ranking_score := 167/200 }] := by
    rw [List.map_cons, List.map_nil, hone]
  unfold suppressSpam
  rw [hmap]
  rfl

/-- C1 witness: the amended theorem applied at the concrete instance. -/
theorem suppress_spam_penalty_witness :
    33/100 ≤ (detect exInteractions).1 ∧
    (suppressOne exVI (1/2) exCandidate).ranking_score
      = exCandidate.ranking_score * (1 - (detect exInteractions).1 * (1/2)) ∧
    (0 ≤ exCandidate.ranking_score →
      (suppressOne exVI (1/2) exCandidate).ranking_score
        ≤ 835/1000 * exCandidate.ranking_score) ∧
    (suppressSpam exVI (1/2) [exCandidate]).Perm
      ([exCandidate].map (suppressOne exVI (1/2))) := by
  exact suppress_spam_penalty exVI [exCandidate] exCandidate exInteractions rfl
    (by rw [exInteractions_length])
    (fun i hi => (exInteractions_mem hi).1) (fun i hi => (exInteractions_mem hi).2.1)

/-! ### C2 — cold-start expansion/decay monotonicity -/

lemma lookupA_setA_self {α : Type} (m : List (Int × α)) (k : Int) (v : α) :
    lookupA (setA m k v) k = some v := by
  induction m with
  | nil => simp [setA, lookupA]
  | cons p rest ih =>
      obtain ⟨k0, v0⟩ := p
      by_cases h : k0 = k
      · subst h
        simp [setA, lookupA]
      · simp [setA, h, lookupA, ih]

lemma floor_two_mul (c : ℕ) : (⌊(c : ℚ) * 2⌋).toNat = 2 * c := by
  rw [show ((c : ℚ) * 2) = ((2 * c : ℕ) : ℚ) by push_cast; ring]
  rw [Int.floor_natCast]
  omega

lemma floor_nine_tenths (c : ℕ) : (⌊(c : ℚ) * (9/10)⌋).toNat = 9 * c / 10 := by
  rw [show ((c : ℚ) * (9/10)) = ((9 * c : ℕ) : ℚ) / ((10 : ℕ) : ℚ) by push_cast; ring]
  rw [Rat.floor_natCast_div_natCast]
  omega

/-- The state written back by the decay branch of `viral_expansion`. -/
def decayedState (st : ColdStartState) (f : ℚ) : ColdStartState :=
  { st with
    exposure_count := (⌊(st.exposure_count : ℚ) * f⌋).toNat
    stage := "decaying" }

/-- The state written back by the expansion branch of `viral_expansion`. -/
def expandedState (st : ColdStartState) (f : ℚ) (users : List Int) : ColdStartState :=
  { st with
    exposure_count := (⌊(st.exposure_count : ℚ) * f⌋).toNat
    stage := "expanding"
    exposed_users := some ((st.exposed_users.getD st.cohort) ++ users) }

@[simp] lemma decayedState_exposure (st : ColdStartState) (f : ℚ) :
    (decayedState st f).exposure_count = (⌊(st.exposure_count : ℚ) * f⌋).toNat := rfl

@[simp] lemma decayedState_stage (st : ColdStartState) (f : ℚ) :
    (decayedState st f).stage = "decaying" := rfl

@[simp] lemma expandedState_exposure (st : ColdStartState) (f : ℚ) (users : List Int) :
    (expandedState st f users).exposure_count = (⌊(st.exposure_count : ℚ) * f⌋).toNat := rfl

@[simp] lemma expandedState_stage (st : ColdStartState) (f : ℚ) (users : List Int) :
    (expandedState st f users).stage = "expanding" := rfl

/-- Reduction of `viral_expansion` on the decay branch. -/
lemma viralExpansion_decay (e : ColdStartEngine) (vid : Int) (pool : List Int)
    (simMap : Option (Int → Option (List Int)))
    (sample : List Int → Int → List Int) (senum : List Int → List Int)
    (st : ColdStartState) (hst : lookupA e.video_states vid = some st)
    (h : ¬ e.expansion_threshold < st.performance_score) :
    viralExpansion e vid pool simMap sample senum
      = ([], { e with
          video_states := setA e.video_states vid (decayedState st e.decay_factor) }) := by
  unfold viralExpansion decayedState
  simp only [hst, if_neg h]

/-- Reduction of `viral_expansion` on the expansion branch: some user list
is emitted and the stored state is scaled by the expansion factor. -/
lemma viralExpansion_expand (e : ColdStartEngine) (vid : Int) (pool : List Int)
    (simMap : Option (Int → Option (List Int)))
    (sample : List Int → Int → List Int) (senum : List Int → List Int)
    (st : ColdStartState) (hst : lookupA e.video_states vid = some st)
    (h : e.expansion_threshold < st.performance_score) :
    ∃ users, viralExpansion e vid pool simMap sample senum
      = (users, { e with
          video_states := setA e.video_states vid
            (expandedState st e.expansion_factor users) }) := by
  unfold viralExpansion expandedState
  simp only [hst, if_pos h]
  exact ⟨_, rfl⟩

/-- C2 (amended).  For a video with cold-start state of exposure count at
least 1 and the default factors (`expansion_factor = 2.0`,
`decay_factor = 0.9`): above the threshold the exposure count strictly
increases, doubling exactly; at or below it the exposure count strictly
decreases to `int(0.9·count)` and no users are emitted.  (The claim as
stated fails at exposure count 0, where both branches leave it at 0.) -/
theorem viral_expansion_monotonicity (e : ColdStartEngine) (vid : Int)
    (st : ColdStartState) (pool : List Int)
    (simMap : Option (Int → Option (List Int)))
    (sample : List Int → Int → List Int) (senum : List Int → List Int)
    (hst : lookupA e.video_states vid = some st)
    (hf : e.expansion_factor = 2) (hd : e.decay_factor = 9/10)
    (hc : 1 ≤ st.exposure_count) :
    (e.expansion_threshold < st.performance_score →
      ∃ st', lookupA (viralExpansion e vid pool simMap sample senum).2.video_states vid
          = some st'
        ∧ st'.exposure_count = 2 * st.exposure_count
        ∧ st.exposure_count < st'.exposure_count
        ∧ st'.stage = "expanding") ∧
    (st.performance_score ≤ e.expansion_threshold →
      (viralExpansion e vid pool simMap sample senum).1 = []
      ∧ ∃ st', lookupA (viralExpansion e vid pool simMap sample senum).2.video_states vid
          = some st'
        ∧ st'.exposure_count = 9 * st.exposure_count / 10
        ∧ st'.exposure_count < st.exposure_count
        ∧ st'.stage = "decaying") := by
  constructor
  · intro h
    obtain ⟨users, heq⟩ := viralExpansion_expand e vid pool simMap sample senum st hst h
    rw [heq]
    refine ⟨expandedState st e.expansion_factor users, lookupA_setA_self _ _ _, ?_, ?_, rfl⟩
    · rw [expandedState_exposure, hf]
      exact floor_two_mul _
    · rw [expandedState_exposure, hf, floor_two_mul]
      omega
  · intro h
    rw [viralExpansion_decay e vid pool simMap sample senum st hst (not_lt.mpr h)]
    refine ⟨rfl, decayedState st e.decay_factor, lookupA_setA_self _ _ _, ?_, ?_, rfl⟩
    · rw [decayedState_exposure, hd]
      exact floor_nine_tenths _
    · rw [decayedState_exposure, hd, floor_nine_tenths]
      omega

/-- Cold-start state with exposure count 0 (reachable: an empty user pool
at `initial_exposure`, or decay from exposure count 1, both give 0). -/
def exStZero : ColdStartState :=
  { cohort_id := 0, cohort := [], exposure_count := 0, interactions := [],
    performance_score := 2, stage := "initial", exposed_users := none }

def exEngineZero : ColdStartEngine :=
  { initial_cohort_size := 500, expansion_threshold := 6/5, expansion_factor := 2,
    decay_factor := 9/10, video_states := [(5, exStZero)], cohort_baselines := [] }

/-- C2 counterexample: at exposure count 0 the performance score exceeds
the threshold but `int(0 * 2.0) = 0`, so the exposure count does not
strictly increase. -/
theorem viral_expansion_claim_counterexample :
    lookupA exEngineZero.video_states 5 = some exStZero ∧
    exEngineZero.expansion_threshold < exStZero.performance_score ∧
    ∃ st',
      lookupA (viralExpansion exEngineZero 5 [] none (fun _ _ => []) id).2.video_states 5
        = some st'
      ∧ st'.exposure_count = 0
      ∧ ¬ (exStZero.exposure_count < st'.exposure_count) := by
  refine ⟨rfl, by norm_num [exEngineZero, exStZero], ?_⟩
  obtain ⟨users, heq⟩ := viralExpansion_expand exEngineZero 5 [] none (fun _ _ => []) id
    exStZero rfl (by norm_num [exEngineZero, exStZero])
  rw [heq]
  refine ⟨expandedState exStZero exEngineZero.expansion_factor users,
    lookupA_setA_self _ _ _, ?_, ?_⟩
  · rw [expandedState_exposure]
    norm_num [exEngineZero, exStZero]
  · rw [expandedState_exposure]
    norm_num [exEngineZero, exStZero]

/-- State with positive exposure for the C2 witness. -/
def exStPos : ColdStartState :=
  { cohort_id := 0, cohort := [], exposure_count := 500, interactions := [],
    performance_score := 2, stage := "initial", exposed_users := none }

def exEnginePos : ColdStartEngine :=
  { initial_cohort_size := 500, expansion_threshold := 6/5, expansion_factor := 2,
    decay_factor := 9/10, video_states := [(1, exStPos)], cohort_baselines := [] }

/-- C2 witness: the amended theorem applied at a concrete state with
exposure count 500. -/
theorem viral_expansion_monotonicity_witness :
    (exEnginePos.expansion_threshold < exStPos.performance_score →
      ∃ st', lookupA
          (viralExpansion exEnginePos 1 [] none (fun _ _ => []) id).2.video_states 1
          = some st'
        ∧ st'.exposure_count = 2 * exStPos.exposure_count
        ∧ exStPos.exposure_count < st'.exposure_count
        ∧ st'.stage = "expanding") ∧
    (exStPos.performance_score ≤ exEnginePos.expansion_threshold →
      (viralExpansion exEnginePos 1 [] none (fun _ _ => []) id).1 = []
      ∧ ∃ st', lookupA
          (viralExpansion exEnginePos 1 [] none (fun _ _ => []) id).2.video_states 1
          = some st'
        ∧ st'.exposure_count = 9 * exStPos.exposure_count / 10
        ∧ st'.exposure_count < exStPos.exposure_count
        ∧ st'.stage = "decaying") :=
  viral_expansion_monotonicity exEnginePos 1 exStPos [] none (fun _ _ => []) id
    rfl rfl rfl (by norm_num [exStPos])


/-! ### C3 — performance normalization formula and the expansion scenario -/

/-- The state written back by `normalize_performance` for a known video
with a non-empty sample. -/
def recordedState (st : ColdStartState) (score : ℚ) (l : List Interaction) : ColdStartState :=
  { st with performance_score := score, interactions := l }

@[simp] lemma recordedState_perf (st : ColdStartState) (score : ℚ) (l : List Interaction) :
    (recordedState st score l).performance_score = score := rfl

@[simp] lemma recordedState_exposure (st : ColdStartState) (score : ℚ) (l : List Interaction) :
    (recordedState st score l).exposure_count = st.exposure_count := rfl

lemma normalizePerformance_formula (e : ColdStartEngine) (vid : Int)
    (st : ColdStartState) (base : CohortBaseline) (l : List Interaction)
    (hst : lookupA e.video_states vid = some st)
    (hb : lookupA e.cohort_baselines st.cohort_id = some base)
    (hne : l.length ≠ 0)
    (hw : 0 < base.watch_time_avg) (hcp : 0 < base.completion_rate)
    (hsk : 0 < base.skip_rate) :
    (normalizePerformance e vid l).1
      = (meanQ (l.map (·.watch_time)) / base.watch_time_avg) * (4/10)
        + (meanQ (l.map (·.completion_rate)) / base.completion_rate) * (4/10)
        - (meanQ (l.map (fun i => if i.skip then 1 else 0)) / base.skip_rate) * (2/10) := by
  unfold normalizePerformance
  simp only [hst, hb, if_neg hne, if_pos hw, if_pos hcp, if_pos hsk]

lemma normalizePerformance_engine (e : ColdStartEngine) (vid : Int)
    (st : ColdStartState) (base : CohortBaseline) (l : List Interaction)
    (hst : lookupA e.video_states vid = some st)
    (hb : lookupA e.cohort_baselines st.cohort_id = some base)
    (hne : l.length ≠ 0) :
    (normalizePerformance e vid l).2
      = { e with
          video_states := setA e.video_states vid (recordedState st (normalizePerformance e vid l).1 l) } := by
  unfold normalizePerformance recordedState
  simp only [hst, hb, if_neg hne]

/-- Scenario data of the spec: default baselines (0.5, 0.3, 0.4) under
cohort 7, a video with exposure count 500, and ten interactions whose
averages are watch 0.9, completion 0.6, skip-rate 0.1. -/
def scenBaseline : CohortBaseline :=
  { watch_time_avg := 1/2, completion_rate := 3/10, skip_rate := 2/5 }

def scenState : ColdStartState :=
  { cohort_id := 7, cohort := [], exposure_count := 500, interactions := [],
    performance_score := 0, stage := "initial", exposed_users := none }

def scenEngine : ColdStartEngine :=
  { initial_cohort_size := 500, expansion_threshold := 6/5, expansion_factor := 2,
    decay_factor := 9/10, video_states := [(1, scenState)],
    cohort_baselines := [(7, scenBaseline)] }

def scenInteractions : List Interaction :=
  (List.range 10).map (fun (k : ℕ) =>
    { user_id := (k : Int), video_id := 1, timestamp := 0, watch_time := 9/10,
      completion_rate := 3/5, skip := decide (k = 0), like := false,
      comment := false, share := false })

lemma scenInteractions_length : scenInteractions.length = 10 := by
  unfold scenInteractions
  rw [List.length_map, List.length_range]

lemma scen_score : (normalizePerformance scenEngine 1 scenInteractions).1 = 147/100 := by
  rw [normalizePerformance_formula scenEngine 1 scenState scenBaseline scenInteractions
    rfl rfl (by rw [scenInteractions_length]; omega)
    (by norm_num [scenBaseline]) (by norm_num [scenBaseline]) (by norm_num [scenBaseline])]
  norm_num [scenInteractions, scenBaseline, meanQ, List.range_succ]

/-- C3.  First part: for every known video with a positive-entry baseline
and non-empty sample, `normalize_performance` returns exactly
`0.4·(watch/baseline) + 0.4·(completion/baseline) − 0.2·(skip/baseline)`.
Second part (spec scenario): with the default baselines and normalized
ratios 1.8, 2.0, 0.25 the score is 1.47, which exceeds the default
threshold 1.2, and the subsequent viral expansion doubles the exposure
count from 500 to 1000. -/
theorem normalize_performance_spec :
    (∀ (e : ColdStartEngine) (vid : Int) (st : ColdStartState)
        (base : CohortBaseline) (l : List Interaction),
      lookupA e.video_states vid = some st →
      lookupA e.cohort_baselines st.cohort_id = some base →
      l.length ≠ 0 →
      0 < base.watch_time_avg → 0 < base.completion_rate → 0 < base.skip_rate →
      (normalizePerformance e vid l).1
        = (meanQ (l.map (·.watch_time)) / base.watch_time_avg) * (4/10)
          + (meanQ (l.map (·.completion_rate)) / base.completion_rate) * (4/10)
          - (meanQ (l.map (fun i => if i.skip then 1 else 0)) / base.skip_rate) * (2/10))
    ∧ (normalizePerformance scenEngine 1 scenInteractions).1 = 147/100
    ∧ scenEngine.expansion_threshold < 147/100
    ∧ scenState.exposure_count = 500
    ∧ (∃ st', lookupA
          (viralExpansion (normalizePerformance scenEngine 1 scenInteractions).2 1
            [] none (fun _ _ => []) id).2.video_states 1
        = some st' ∧ st'.exposure_count = 1000) := by
  have hne : scenInteractions.length ≠ 0 := by rw [scenInteractions_length]; omega
  have he' := normalizePerformance_engine scenEngine 1 scenState scenBaseline
    scenInteractions rfl rfl hne
  refine ⟨normalizePerformance_formula, scen_score, by norm_num [scenEngine], rfl, ?_⟩
  have hlook : lookupA (normalizePerformance scenEngine 1 scenInteractions).2.video_states 1
      = some (recordedState scenState (normalizePerformance scenEngine 1 scenInteractions).1
          scenInteractions) := by
    rw [he']
    exact lookupA_setA_self _ _ _
  have hthr : (normalizePerformance scenEngine 1 scenInteractions).2.expansion_threshold
      < (recordedState scenState (normalizePerformance scenEngine 1 scenInteractions).1
          scenInteractions).performance_score := by
    rw [he', recordedState_perf, scen_score]
    norm_num [scenEngine]
  obtain ⟨users, heq⟩ := viralExpansion_expand
    (normalizePerformance scenEngine 1 scenInteractions).2 1 [] none (fun _ _ => []) id
    _ hlook hthr
  rw [heq]
  refine ⟨_, lookupA_setA_self _ _ _, ?_⟩
  rw [expandedState_exposure, recordedState_exposure]
  have hfac : (normalizePerformance scenEngine 1 scenInteractions).2.expansion_factor = 2 := by
    rw [he']
    rfl
  rw [hfac, floor_two_mul]
  rfl

/-- C3 witness: the universally quantified formula applied at the
scenario instance. -/
theorem normalize_performance_spec_witness :
    (normalizePerformance scenEngine 1 scenInteractions).1
      = (meanQ (scenInteractions.map (·.watch_time)) / scenBaseline.watch_time_avg) * (4/10)
        + (meanQ (scenInteractions.map (·.completion_rate))
            / scenBaseline.completion_rate) * (4/10)
        - (meanQ (scenInteractions.map (fun i => if i.skip then 1 else 0))
            / scenBaseline.skip_rate) * (2/10) :=
  normalize_performance_spec.1 scenEngine 1 scenState scenBaseline scenInteractions
    rfl rfl (by rw [scenInteractions_length]; omega)
    (by norm_num [scenBaseline]) (by norm_num [scenBaseline]) (by norm_num [scenBaseline])

/-! ### C7 — missing state falls back, never errors -/

/-- C7.  Unknown `item_id`s never raise: the bandit scoring loop gives a
candidate without statistics the unbounded score `inf` and marks it as
exploration; `normalize_performance` returns score 0.0 and leaves the
engine unchanged; `viral_expansion` returns an empty user list and leaves
the engine unchanged.  (Totality of the Lean functions embeds the absence
of a raised error.) -/
theorem missing_state_fallbacks :
    (∀ (d : ℕ) (cb : ContextualBandit d) (uf : UserFeatures) (c : RankingCandidate),
      lookupA cb.arms c.video_id = none →
      scoreArm cb uf c = ⟨c, .inf, .inf, true⟩) ∧
    (∀ (e : ColdStartEngine) (vid : Int) (l : List Interaction),
      lookupA e.video_states vid = none →
      normalizePerformance e vid l = (0, e)) ∧
    (∀ (e : ColdStartEngine) (vid : Int) (pool : List Int)
        (simMap : Option (Int → Option (List Int)))
        (sample : List Int → Int → List Int) (senum : List Int → List Int),
      lookupA e.video_states vid = none →
      viralExpansion e vid pool simMap sample senum = ([], e)) := by
  refine ⟨?_, ?_, ?_⟩
  · intro d cb uf c h
    unfold scoreArm
    simp only [h]
  · intro e vid l h
    unfold normalizePerformance
    simp only [h]
  · intro e vid pool simMap sample senum h
    unfold viralExpansion
    simp only [h]

def exUser : UserFeatures :=
  { user_id := 0, short_term_embedding := none, mid_term_embedding := none,
    long_term_embedding := none }

def exEmptyBandit : ContextualBandit 1664 := { alpha := 1, arms := [] }

/-- C7 witness: the fallbacks evaluated at an empty bandit and at a video
id absent from the cold-start engine. -/
theorem missing_state_fallbacks_witness :
    scoreArm exEmptyBandit exUser exCandidate
      = ⟨exCandidate, .inf, .inf, true⟩ ∧
    normalizePerformance exEngineZero 99 [] = (0, exEngineZero) ∧
    viralExpansion exEngineZero 99 [] none (fun _ _ => []) id = ([], exEngineZero) :=
  ⟨missing_state_fallbacks.1 1664 exEmptyBandit exUser exCandidate rfl,
   missing_state_fallbacks.2.1 exEngineZero 99 [] rfl,
   missing_state_fallbacks.2.2 exEngineZero 99 [] none (fun _ _ => []) id rfl⟩

/-! ### C8 — small-list fallback and cliffhanger length preservation -/

lemma chLoop_length_ge (top : List RankingCandidate) :
    ∀ (ps : List ℕ) (i : ℕ) (res : List RankingCandidate),
      res.length ≤ (chLoop top ps i res).length := by
  intro ps
  induction ps with
  | nil => intro i res; exact le_refl _
  | cons pos rest ih =>
      intro i res
      unfold chLoop
      refine le_trans ?_ (ih (i + 1) _)
      split
      · exact List.length_le_length_insertIdx _ _ _
      · exact le_refl _

/-- C8 (amended).  The cliffhanger insertion step returns candidate lists
of fewer than 5 elements unmodified; the pacing step guarantees this only
below 3 elements (and then the pacing-then-cliffhanger composite is the
identity); for lists of 5 or more elements the cliffhanger insertion
preserves the total length. -/
theorem cliffhanger_pacing_spec :
    (∀ l : List RankingCandidate, l.length < 5 → applyCliffhangers l = l) ∧
    (∀ l : List RankingCandidate, l.length < 3 →
      applyPacing l = l ∧ applyCliffhangers (applyPacing l) = l) ∧
    (∀ l : List RankingCandidate, 5 ≤ l.length →
      (applyCliffhangers l).length = l.length) := by
  have h5 : ∀ l : List RankingCandidate, l.length < 5 → applyCliffhangers l = l := by
    intro l h
    unfold applyCliffhangers
    rw [if_pos h]
  refine ⟨h5, ?_, ?_⟩
  · intro l h
    have hp : applyPacing l = l := by
      unfold applyPacing
      rw [if_pos h]
    exact ⟨hp, by rw [hp]; exact h5 l (by omega)⟩
  · intro l h
    unfold applyCliffhangers
    rw [if_neg (by omega)]
    rw [List.length_take]
    exact Nat.min_eq_left (chLoop_length_ge _ _ _ _)

def pacC (v : Int) (q : ℚ) : RankingCandidate :=
  { video_id := v, ranking_score := q,
    video_features := { category := none, content_embedding := none },
    continuation_score := 0 }

def exPacing : List RankingCandidate := [pacC 1 1, pacC 2 2, pacC 3 3]

/-- C8 counterexample: a 3-element list in ascending score order is
reordered by the pacing step (and passed through by the cliffhanger
step), so the pacing/cliffhanger interleaving does not return lists of
fewer than 5 elements unmodified. -/
theorem cliffhanger_pacing_claim_counterexample :
    exPacing.length < 5 ∧
    applyCliffhangers (applyPacing exPacing) ≠ exPacing := by
  have hsort : sortDesc (·.ranking_score) exPacing = [pacC 3 3, pacC 2 2, pacC 1 1] := by
    unfold exPacing sortDesc
    norm_num [insertDesc, pacC]
  have hp : applyPacing exPacing = [pacC 3 3, pacC 2 2, pacC 1 1] := by
    unfold applyPacing
    rw [if_neg (by norm_num [exPacing])]
    rw [hsort]
    norm_num [pacingLoop]
  have hc : applyCliffhangers [pacC 3 3, pacC 2 2, pacC 1 1] = [pacC 3 3, pacC 2 2, pacC 1 1] := by
    unfold applyCliffhangers
    rw [if_pos (by norm_num)]
  refine ⟨by norm_num [exPacing], ?_⟩
  rw [hp, hc]
  intro h
  have := congrArg (List.map (·.video_id)) h
  simp [pacC, exPacing] at this

def exFive : List RankingCandidate :=
  [pacC 1 1, pacC 2 2, pacC 3 3, pacC 4 4, pacC 5 5]

/-- C8 witness: the amended theorem applied at concrete lists of lengths
1 and 5. -/
theorem cliffhanger_pacing_spec_witness :
    applyCliffhangers [pacC 1 1] = [pacC 1 1] ∧
    (applyPacing [pacC 1 1] = [pacC 1 1]
      ∧ applyCliffhangers (applyPacing [pacC 1 1]) = [pacC 1 1]) ∧
    (applyCliffhangers exFive).length = exFive.length :=
  ⟨cliffhanger_pacing_spec.1 [pacC 1 1] (by norm_num),
   cliffhanger_pacing_spec.2.1 [pacC 1 1] (by norm_num),
   cliffhanger_pacing_spec.2.2 exFive (by norm_num [exFive])⟩

/-! ### C9 — the pacing step is a permutation -/

lemma pacingLoop_perm (s : List RankingCandidate) (half : ℕ) (hhalf : half ≤ s.length) :
    ∀ (fuel i hi mi : ℕ), (half - hi) + (s.length - mi) ≤ fuel →
      (pacingLoop s half fuel i hi mi).Perm
        (((s.drop hi).take (half - hi)) ++ s.drop mi) := by
  intro fuel
  induction fuel with
  | zero =>
      intro i hi mi hbound
      have h1 : half - hi = 0 := by omega
      have h2 : s.drop mi = [] := List.drop_eq_nil_of_le (by omega)
      rw [h1, h2, List.take_zero, List.nil_append]
      exact List.Perm.refl _
  | succ fuel ih =>
      intro i hi mi hbound
      unfold pacingLoop
      by_cases h1 : i % 2 = 0 ∧ hi < half
      · rw [if_pos h1]
        have hhi : hi < s.length := lt_of_lt_of_le h1.2 hhalf
        have hdrop : s.drop hi = s.getD hi default :: s.drop (hi + 1) := by
          rw [List.getD_eq_getElem?_getD, List.getElem?_eq_getElem hhi]
          exact List.drop_eq_getElem_cons hhi
        have htake : (s.drop hi).take (half - hi)
            = s.getD hi default :: (s.drop (hi + 1)).take (half - (hi + 1)) := by
          rw [hdrop, show half - hi = (half - (hi + 1)) + 1 by omega, List.take_succ_cons]
        rw [htake, List.cons_append]
        exact (ih (i + 1) (hi + 1) mi (by omega)).cons _
      · rw [if_neg h1]
        by_cases h2 : mi < s.length
        · rw [if_pos h2]
          have hdrop : s.drop mi = s.getD mi default :: s.drop (mi + 1) := by
            rw [List.getD_eq_getElem?_getD, List.getElem?_eq_getElem h2]
            exact List.drop_eq_getElem_cons h2
          rw [hdrop]
          exact ((ih (i + 1) hi (mi + 1) (by omega)).cons _).trans List.perm_middle.symm
        · rw [if_neg h2]
          by_cases h3 : hi < half
          · rw [if_pos h3]
            have hhi : hi < s.length := lt_of_lt_of_le h3 hhalf
            have hdrop : s.drop hi = s.getD hi default :: s.drop (hi + 1) := by
              rw [List.getD_eq_getElem?_getD, List.getElem?_eq_getElem hhi]
              exact List.drop_eq_getElem_cons hhi
            have htake : (s.drop hi).take (half - hi)
                = s.getD hi default :: (s.drop (hi + 1)).take (half - (hi + 1)) := by
              rw [hdrop, show half - hi = (half - (hi + 1)) + 1 by omega, List.take_succ_cons]
            rw [htake, List.cons_append]
            exact (ih (i + 1) (hi + 1) mi (by omega)).cons _
          · rw [if_neg h3]
            exact ih (i + 1) hi mi (by omega)

/-- C9.  `_apply_pacing` returns a permutation of its input: the output
has the same length and the same multiset of candidates (no candidate
dropped or duplicated). -/
theorem apply_pacing_perm (l : List RankingCandidate) :
    (applyPacing l).Perm l
    ∧ (applyPacing l).length = l.length
    ∧ ∀ c : RankingCandidate, (applyPacing l).count c = l.count c := by
  have hperm : (applyPacing l).Perm l := by
    unfold applyPacing
    split
    · exact List.Perm.refl _
    · have hs := sortDesc_perm (fun c : RankingCandidate => c.ranking_score) l
      have h := pacingLoop_perm (sortDesc (·.ranking_score) l)
        ((sortDesc (·.ranking_score) l).length / 2) (Nat.div_le_self _ _)
        (sortDesc (·.ranking_score) l).length 0 0
        ((sortDesc (·.ranking_score) l).length / 2) (by omega)
      rw [List.drop_zero, Nat.sub_zero, List.take_append_drop] at h
      exact h.trans hs
  exact ⟨hperm, hperm.length_eq, fun c => hperm.count_eq c⟩

/-! ### C10 — structural facts about novelty injection -/

lemma sublist_insertIdx {α : Type} : ∀ (l : List α) (n : ℕ) (a : α),
    List.Sublist l (l.insertIdx n a) := by
  intro l
  induction l with
  | nil =>
      intro n a
      cases n with
      | zero => exact List.sublist_cons_self a []
      | succ m => exact List.Sublist.refl _
  | cons c cs ih =>
      intro n a
      cases n with
      | zero => exact List.sublist_cons_self a (c :: cs)
      | succ m =>
          rw [List.insertIdx_succ_cons]
          exact List.Sublist.cons₂ c (ih m a)

lemma injectLoop_sublist (P : List ℕ) :
    ∀ (novels lst : List RankingCandidate) (i : ℕ),
      List.Sublist lst (injectLoop P lst i novels) := by
  intro novels
  induction novels with
  | nil => intro lst i; exact List.Sublist.refl _
  | cons nc rest ih =>
      intro lst i
      unfold injectLoop
      refine List.Sublist.trans ?_ (ih _ (i + 1))
      split
      · exact sublist_insertIdx _ _ _
      · exact List.Sublist.refl _

lemma injectLoop_mem (P : List ℕ) :
    ∀ (novels lst : List RankingCandidate) (i : ℕ) (c : RankingCandidate),
      c ∈ injectLoop P lst i novels → c ∈ lst ∨ c ∈ novels := by
  intro novels
  induction novels with
  | nil => intro lst i c h; exact Or.inl h
  | cons nc rest ih =>
      intro lst i c h
      unfold injectLoop at h
      rcases ih _ (i + 1) c h with hl | hr
      · revert hl
        split
        · intro hl
          rcases (List.mem_insertIdx (le_of_lt (by assumption))).mp hl with he | hm
          · exact Or.inr (he ▸ List.mem_cons_self nc rest)
          · exact Or.inl hm
        · intro hl
          exact Or.inl hl
      · exact Or.inr (List.mem_cons_of_mem nc hr)

lemma injectLoop_step (P : List ℕ) (lst : List RankingCandidate) (i : ℕ)
    (nc : RankingCandidate) (rest : List RankingCandidate) (pos : ℕ)
    (hp : P.getD (i % P.length) 0 = pos) (h : pos < lst.length) :
    injectLoop P lst i (nc :: rest)
      = injectLoop P (lst.insertIdx pos nc) (i + 1) rest := by
  conv_lhs => rw [injectLoop]
  rw [hp, if_pos h]

lemma injectLoop_skip (P : List ℕ) (lst : List RankingCandidate) (i : ℕ)
    (nc : RankingCandidate) (rest : List RankingCandidate)
    (h : ¬ (P.getD (i % P.length) 0 < lst.length)) :
    injectLoop P lst i (nc :: rest) = injectLoop P lst (i + 1) rest := by
  conv_lhs => rw [injectLoop]
  rw [if_neg h]

lemma injectLoop_length (P : List ℕ) :
    ∀ (novels lst : List RankingCandidate) (i : ℕ),
      ∃ k, k ≤ novels.length
        ∧ (injectLoop P lst i novels).length = lst.length + k := by
  intro novels
  induction novels with
  | nil => intro lst i; exact ⟨0, by omega, rfl⟩
  | cons nc rest ih =>
      intro lst i
      by_cases h : P.getD (i % P.length) 0 < lst.length
      · rw [injectLoop_step P lst i nc rest _ rfl h]
        obtain ⟨k, hk, hlen⟩ := ih (lst.insertIdx _ nc) (i + 1)
        refine ⟨k + 1, by simp; omega, ?_⟩
        rw [hlen, List.length_insertIdx _ _ (le_of_lt h)]
        omega
      · rw [injectLoop_skip P lst i nc rest h]
        obtain ⟨k, hk, hlen⟩ := ih lst (i + 1)
        exact ⟨k, by simp; omega, hlen⟩

/-- Candidates and embeddings for the concrete novelty instances: videos
1, 2, 3 carry the embedding `[-1]`, opposite to the history centroid
`[1]` of video 100; the remaining videos carry no embedding. -/
def nvC (v : Int) : RankingCandidate :=
  { video_id := v, ranking_score := 0,
    video_features := { category := none, content_embedding := none },
    continuation_score := 0 }

def nvEmb : Int → Option (List ℚ) := fun v =>
  if v = 1 ∨ v = 2 ∨ v = 3 then some [-1]
  else if v = 100 then some [1] else none

def nvHist : List Interaction :=
  [{ user_id := 0, video_id := 100, timestamp := 0, watch_time := 0,
     completion_rate := 0, skip := false, like := false, comment := false,
     share := false }]

def dupRanked : List RankingCandidate :=
  [nvC 1, nvC 10, nvC 11, nvC 12, nvC 13, nvC 14]

lemma nv_hembs : historyEmbeddings nvHist nvEmb = [[1]] := by
  unfold historyEmbeddings lastN nvHist nvEmb
  norm_num [List.filterMap_cons]

lemma nv_centroid : centroidL [[(1 : ℚ)]] = [1] := by
  unfold centroidL vaddL
  norm_num

lemma dup_novel :
    novelFilter dupRanked (centroidL (historyEmbeddings nvHist nvEmb)) nvEmb (1/2)
      = [nvC 1] := by
  rw [nv_hembs, nv_centroid]
  unfold novelFilter dupRanked nvEmb
  norm_num [List.filter_cons, nvC, cossimLT, sqnorm, dotL]

/-- The branch structure of `inject_novelty` with its local bindings
substituted (definitional). -/
lemma injectNovelty_eq (rate ms : ℚ) (ranked : List RankingCandidate)
    (hist : List Interaction) (emb : Int → Option (List ℚ)) (sl : ℕ) :
    injectNovelty rate ms ranked hist emb sl
      = if noveltyBudget rate sl = 0 then ranked
        else if (historyEmbeddings hist emb).length = 0 then ranked
        else injectLoop [5, 10, 15, 20, 25] ranked 0
          ((novelFilter ranked (centroidL (historyEmbeddings hist emb)) emb ms).take
            (noveltyBudget rate sl)) := rfl

lemma dup_eval : injectNovelty (15/100) (1/2) dupRanked nvHist nvEmb 20
    = [nvC 1, nvC 10, nvC 11, nvC 12, nvC 13, nvC 1, nvC 14] := by
  have hb : noveltyBudget (15/100) 20 = 3 := by
    unfold noveltyBudget
    norm_num
    decide
  rw [injectNovelty_eq, hb, dup_novel]
  rw [if_neg (by omega), if_neg (by rw [nv_hembs]; simp)]
  rw [show ([nvC 1] : List RankingCandidate).take 3 = [nvC 1] from rfl]
  rw [injectLoop_step [5, 10, 15, 20, 25] dupRanked 0 (nvC 1) [] 5 rfl
    (by rw [show dupRanked.length = 6 from rfl]; omega)]
  rfl

/-- C10.  Structural contract of `inject_novelty`: every element of the
output already occurs in the input list (novel entries are drawn from the
ranked list itself, not a separate pool); the input survives in order as
a sublist (insertion shifts, never replaces); the output length is the
input length plus the number of insertions performed, which never exceeds
the budget; an insertion happens only when the target position is
strictly below the current list length; and the output can contain the
same candidate twice. -/
theorem inject_novelty_structure :
    (∀ (rate ms : ℚ) (ranked : List RankingCandidate) (hist : List Interaction)
        (emb : Int → Option (List ℚ)) (sl : ℕ) (c : RankingCandidate),
      c ∈ injectNovelty rate ms ranked hist emb sl → c ∈ ranked) ∧
    (∀ (rate ms : ℚ) (ranked : List RankingCandidate) (hist : List Interaction)
        (emb : Int → Option (List ℚ)) (sl : ℕ),
      List.Sublist ranked (injectNovelty rate ms ranked hist emb sl)) ∧
    (∀ (rate ms : ℚ) (ranked : List RankingCandidate) (hist : List Interaction)
        (emb : Int → Option (List ℚ)) (sl : ℕ),
      ∃ k, k ≤ noveltyBudget rate sl
        ∧ (injectNovelty rate ms ranked hist emb sl).length = ranked.length + k) ∧
    (∀ (lst : List RankingCandidate) (i : ℕ) (nc : RankingCandidate)
        (rest : List RankingCandidate),
      ¬ (([5, 10, 15, 20, 25] : List ℕ).getD (i % 5) 0 < lst.length) →
      injectLoop [5, 10, 15, 20, 25] lst i (nc :: rest)
        = injectLoop [5, 10, 15, 20, 25] lst (i + 1) rest) ∧
    (injectNovelty (15/100) (1/2) dupRanked nvHist nvEmb 20
        = [nvC 1, nvC 10, nvC 11, nvC 12, nvC 13, nvC 1, nvC 14]
      ∧ (injectNovelty (15/100) (1/2) dupRanked nvHist nvEmb 20).get? 0 = some (nvC 1)
      ∧ (injectNovelty (15/100) (1/2) dupRanked nvHist nvEmb 20).get? 5 = some (nvC 1)) := by
  refine ⟨?_, ?_, ?_, ?_, dup_eval, ?_, ?_⟩
  · intro rate ms ranked hist emb sl c hc
    rw [injectNovelty_eq] at hc
    split at hc
    · exact hc
    · split at hc
      · exact hc
      · rcases injectLoop_mem _ _ _ _ _ hc with h | h
        · exact h
        · have := List.mem_of_mem_take h
          unfold novelFilter at this
          exact List.mem_of_mem_filter this
  · intro rate ms ranked hist emb sl
    rw [injectNovelty_eq]
    split
    · exact List.Sublist.refl _
    · split
      · exact List.Sublist.refl _
      · exact injectLoop_sublist _ _ _ _
  · intro rate ms ranked hist emb sl
    rw [injectNovelty_eq]
    split
    · exact ⟨0, by omega, rfl⟩
    · split
      · exact ⟨0, by omega, rfl⟩
      · obtain ⟨k, hk, hlen⟩ := injectLoop_length [5, 10, 15, 20, 25] _ ranked 0
        refine ⟨k, le_trans hk ?_, hlen⟩
        rw [List.length_take]
        exact min_le_left _ _
  · intro lst i nc rest h
    exact injectLoop_skip _ _ _ _ _ h
  · rw [dup_eval]
    rfl
  · rw [dup_eval]
    rfl

/-- C10 witness: the membership and skip facts applied at the concrete
duplicate instance. -/
theorem inject_novelty_structure_witness :
    nvC 1 ∈ dupRanked ∧
    injectLoop [5, 10, 15, 20, 25] [nvC 1] 0 (nvC 2 :: [])
      = injectLoop [5, 10, 15, 20, 25] [nvC 1] 1 [] := by
  constructor
  · exact inject_novelty_structure.1 (15/100) (1/2) dupRanked nvHist nvEmb 20 (nvC 1)
      (by rw [dup_eval]; exact List.mem_cons_self _ _)
  · exact inject_novelty_structure.2.2.2.1 [nvC 1] 0 (nvC 2) []
      (by rw [show (([5, 10, 15, 20, 25] : List ℕ).getD (0 % 5) 0) = 5 from rfl]; simp)

/-! ### C6 — novelty budget and the three-insertion scenario -/

lemma getD_insertIdx_self {α : Type} [Inhabited α] (l : List α) (a : α) (n : ℕ)
    (h : n ≤ l.length) : (l.insertIdx n a).getD n default = a := by
  rw [List.getD_eq_getElem?_getD,
    List.getElem?_eq_getElem (by rw [List.length_insertIdx n _ h]; omega)]
  rw [List.getElem_insertIdx_self l a n h]
  rfl

lemma getD_insertIdx_of_lt {α : Type} [Inhabited α] (l : List α) (a : α) (n k : ℕ)
    (hk : k < n) (hkl : k < l.length) :
    (l.insertIdx n a).getD k default = l.getD k default := by
  rw [List.getD_eq_getElem?_getD, List.getD_eq_getElem?_getD,
    List.getElem?_eq_getElem
      (lt_of_lt_of_le hkl (List.length_le_length_insertIdx _ _ _)),
    List.getElem?_eq_getElem hkl]
  rw [List.getElem_insertIdx_of_lt l a n k hk hkl]

/-- C6.  The novelty budget is `int(session_length × novelty_rate)`,
which equals `⌊session_length × rate⌋` for a non-negative rate; with the
default rate 0.15 and session length 20 the budget is 3; and whenever at
least three novel candidates are available and the ranked list has at
least 14 entries, exactly the first three novel candidates are inserted
at positions 5, 10 and 15, shifting (not replacing) the existing entries:
the output is the input with three insertions, its length grows by 3, the
inserted candidates sit at indices 5, 10, 15, and the input survives as a
sublist. -/
theorem novelty_injection_spec :
    (∀ (sl : ℕ) (r : ℚ), 0 ≤ r → (noveltyBudget r sl : ℤ) = ⌊(sl : ℚ) * r⌋) ∧
    noveltyBudget (15/100) 20 = 3 ∧
    (∀ (ranked : List RankingCandidate) (hist : List Interaction)
        (emb : Int → Option (List ℚ)) (n0 n1 n2 : RankingCandidate),
      historyEmbeddings hist emb ≠ [] →
      (novelFilter ranked (centroidL (historyEmbeddings hist emb)) emb (1/2)).take 3
        = [n0, n1, n2] →
      14 ≤ ranked.length →
      injectNovelty (15/100) (1/2) ranked hist emb 20
          = ((ranked.insertIdx 5 n0).insertIdx 10 n1).insertIdx 15 n2
        ∧ (injectNovelty (15/100) (1/2) ranked hist emb 20).length = ranked.length + 3
        ∧ (injectNovelty (15/100) (1/2) ranked hist emb 20).getD 5 default = n0
        ∧ (injectNovelty (15/100) (1/2) ranked hist emb 20).getD 10 default = n1
        ∧ (injectNovelty (15/100) (1/2) ranked hist emb 20).getD 15 default = n2
        ∧ List.Sublist ranked (injectNovelty (15/100) (1/2) ranked hist emb 20)) := by
  have hb : noveltyBudget (15/100) 20 = 3 := by
    unfold noveltyBudget
    norm_num
    decide
  refine ⟨?_, hb, ?_⟩
  · intro sl r hr
    unfold noveltyBudget
    exact Int.toNat_of_nonneg (Int.floor_nonneg.mpr (by positivity))
  · intro ranked hist emb n0 n1 n2 hne htake hlen
    have hout : injectNovelty (15/100) (1/2) ranked hist emb 20
        = ((ranked.insertIdx 5 n0).insertIdx 10 n1).insertIdx 15 n2 := by
      rw [injectNovelty_eq, hb, htake]
      rw [if_neg (by omega),
        if_neg (fun hh => hne (List.length_eq_zero.mp hh))]
      rw [injectLoop_step [5, 10, 15, 20, 25] ranked 0 n0 [n1, n2] 5 rfl (by omega)]
      rw [injectLoop_step [5, 10, 15, 20, 25] (ranked.insertIdx 5 n0) 1 n1 [n2] 10 rfl
        (by rw [List.length_insertIdx 5 _ (by omega)]; omega)]
      rw [injectLoop_step [5, 10, 15, 20, 25] ((ranked.insertIdx 5 n0).insertIdx 10 n1) 2
        n2 [] 15 rfl
        (by rw [List.length_insertIdx 10 _ (by rw [List.length_insertIdx 5 _ (by omega)]; omega),
              List.length_insertIdx 5 _ (by omega)]; omega)]
      rfl
    have hl1 : (ranked.insertIdx 5 n0).length = ranked.length + 1 :=
      List.length_insertIdx 5 _ (by omega)
    have hl2 : ((ranked.insertIdx 5 n0).insertIdx 10 n1).length = ranked.length + 2 := by
      rw [List.length_insertIdx 10 _ (by omega), hl1]
    refine ⟨hout, ?_, ?_, ?_, ?_, ?_⟩
    · rw [hout, List.length_insertIdx 15 _ (by omega), hl2]
    · rw [hout, getD_insertIdx_of_lt _ _ 15 5 (by omega) (by omega),
        getD_insertIdx_of_lt _ _ 10 5 (by omega) (by omega),
        getD_insertIdx_self _ _ 5 (by omega)]
    · rw [hout, getD_insertIdx_of_lt _ _ 15 10 (by omega) (by omega),
        getD_insertIdx_self _ _ 10 (by omega)]
    · rw [hout, getD_insertIdx_self _ _ 15 (by omega)]
    · rw [hout]
      exact ((sublist_insertIdx ranked 5 n0).trans
        (sublist_insertIdx _ 10 n1)).trans (sublist_insertIdx _ 15 n2)

/-- 16 ranked candidates, the first three novel (embedding `[-1]`). -/
def nvRanked : List RankingCandidate :=
  [nvC 1, nvC 2, nvC 3, nvC 10, nvC 11, nvC 12, nvC 13, nvC 14, nvC 15, nvC 16,
   nvC 17, nvC 18, nvC 19, nvC 20, nvC 21, nvC 22]

lemma nv_novel3 :
    (novelFilter nvRanked (centroidL (historyEmbeddings nvHist nvEmb)) nvEmb (1/2)).take 3
      = [nvC 1, nvC 2, nvC 3] := by
  rw [nv_hembs, nv_centroid]
  unfold novelFilter nvRanked nvEmb
  norm_num [List.filter_cons, nvC, cossimLT, sqnorm, dotL]

/-- C6 witness: the scenario applied at a concrete 16-element ranked list
with three novel candidates. -/
theorem novelty_injection_spec_witness :
    injectNovelty (15/100) (1/2) nvRanked nvHist nvEmb 20
        = ((nvRanked.insertIdx 5 (nvC 1)).insertIdx 10 (nvC 2)).insertIdx 15 (nvC 3)
      ∧ (injectNovelty (15/100) (1/2) nvRanked nvHist nvEmb 20).length = nvRanked.length + 3
      ∧ (injectNovelty (15/100) (1/2) nvRanked nvHist nvEmb 20).getD 5 default = nvC 1
      ∧ (injectNovelty (15/100) (1/2) nvRanked nvHist nvEmb 20).getD 10 default = nvC 2
      ∧ (injectNovelty (15/100) (1/2) nvRanked nvHist nvEmb 20).getD 15 default = nvC 3
      ∧ List.Sublist nvRanked (injectNovelty (15/100) (1/2) nvRanked nvHist nvEmb 20) :=
  novelty_injection_spec.2.2 nvRanked nvHist nvEmb (nvC 1) (nvC 2) (nvC 3)
    (by rw [nv_hembs]; simp) nv_novel3 (by rw [show nvRanked.length = 16 from rfl]; omega)

/-! ### C5 — idempotence of the diversity enforcement -/

/-- Invariant of `tdGo` outputs: each embedded candidate is dissimilar
(at threshold `ms`) to the running `seen` list, which accumulates the
embeddings of the previously accepted candidates. -/
def DissimOK (emb : Int → Option (List ℚ)) (ms : ℚ) :
    List RankingCandidate → List (List ℚ) → Prop
  | [], _ => True
  | c :: cs, seen =>
      match emb c.video_id with
      | some e => (seen.any (fun s0 => cossimGT e s0 ms)) = false
          ∧ DissimOK emb ms cs (seen ++ [e])
      | none => DissimOK emb ms cs seen

lemma tdGo_not_recent (rid : List Int) (emb : Int → Option (List ℚ)) (ms : ℚ) :
    ∀ (l : List RankingCandidate) (seen : List (List ℚ)) (c : RankingCandidate),
      c ∈ tdGo rid emb ms l seen → c.video_id ∉ rid := by
  intro l
  induction l with
  | nil =>
      intro seen c hc
      simp [tdGo] at hc
  | cons c0 cs ih =>
      intro seen c hc
      unfold tdGo at hc
      by_cases h0 : c0.video_id ∈ rid
      · rw [if_pos h0] at hc
        exact ih seen c hc
      · rw [if_neg h0] at hc
        cases hemb : emb c0.video_id with
        | some e =>
            simp only [hemb] at hc
            by_cases hany : (seen.any (fun s0 => cossimGT e s0 ms)) = true
            · rw [if_pos hany] at hc
              exact ih seen c hc
            · rw [if_neg hany] at hc
              rcases List.mem_cons.mp hc with rfl | hmem
              · exact h0
              · exact ih _ c hmem
        | none =>
            simp only [hemb] at hc
            rcases List.mem_cons.mp hc with rfl | hmem
            · exact h0
            · exact ih seen c hmem

lemma tdGo_dissim (rid : List Int) (emb : Int → Option (List ℚ)) (ms : ℚ) :
    ∀ (l : List RankingCandidate) (seen : List (List ℚ)),
      DissimOK emb ms (tdGo rid emb ms l seen) seen := by
  intro l
  induction l with
  | nil =>
      intro seen
      simp [tdGo, DissimOK]
  | cons c0 cs ih =>
      intro seen
      unfold tdGo
      by_cases h0 : c0.video_id ∈ rid
      · rw [if_pos h0]
        exact ih seen
      · rw [if_neg h0]
        cases hemb : emb c0.video_id with
        | some e =>
            simp only [hemb]
            by_cases hany : (seen.any (fun s0 => cossimGT e s0 ms)) = true
            · rw [if_pos hany]
              exact ih seen
            · rw [if_neg hany]
              unfold DissimOK
              simp only [hemb]
              exact ⟨Bool.not_eq_true _ ▸ hany, ih (seen ++ [e])⟩
        | none =>
            simp only [hemb]
            unfold DissimOK
            simp only [hemb]
            exact ih seen

lemma tdGo_fixed (rid : List Int) (emb : Int → Option (List ℚ)) (ms : ℚ) :
    ∀ (l : List RankingCandidate) (seen : List (List ℚ)),
      (∀ c ∈ l, c.video_id ∉ rid) → DissimOK emb ms l seen →
      tdGo rid emb ms l seen = l := by
  intro l
  induction l with
  | nil => intro seen _ _; rfl
  | cons c0 cs ih =>
      intro seen hnr hd
      unfold tdGo
      rw [if_neg (hnr c0 (List.mem_cons_self c0 cs))]
      cases hemb : emb c0.video_id with
      | some e =>
          unfold DissimOK at hd
          simp only [hemb] at hd ⊢
          rw [if_neg (by rw [hd.1]; simp)]
          exact congrArg (c0 :: ·)
            (ih (seen ++ [e]) (fun c hc => hnr c (List.mem_cons_of_mem c0 hc)) hd.2)
      | none =>
          unfold DissimOK at hd
          simp only [hemb] at hd ⊢
          exact congrArg (c0 :: ·)
            (ih seen (fun c hc => hnr c (List.mem_cons_of_mem c0 hc)) hd)

lemma dissim_sublist (emb : Int → Option (List ℚ)) (ms : ℚ) :
    ∀ {l' l : List RankingCandidate}, List.Sublist l' l →
      ∀ {seen' seen : List (List ℚ)}, List.Sublist seen' seen →
      DissimOK emb ms l seen → DissimOK emb ms l' seen' := by
  intro l' l hsub
  induction hsub with
  | slnil =>
      intro seen' seen _ _
      trivial
  | cons a hsub ih =>
      intro seen' seen hseen hd
      unfold DissimOK at hd
      cases hemb : emb a.video_id with
      | some e =>
          simp only [hemb] at hd
          exact ih (hseen.trans (List.sublist_append_left seen [e])) hd.2
      | none =>
          simp only [hemb] at hd
          exact ih hseen hd
  | cons₂ a hsub ih =>
      intro seen' seen hseen hd
      unfold DissimOK at hd ⊢
      cases hemb : emb a.video_id with
      | some e =>
          simp only [hemb] at hd ⊢
          refine ⟨?_, ih (hseen.append_right [e]) hd.2⟩
          rw [List.any_eq_false] at hd ⊢
          exact fun x hx => hd.1 x (hseen.subset hx)
      | none =>
          simp only [hemb] at hd ⊢
          exact ih hseen hd

/-- Invariant of `ccGo` outputs: running the category counter over the
output from the `taken` multiset never hits the cap. -/
def CatOK (maxPer : ℕ) : List RankingCandidate → List String → Prop
  | [], _ => True
  | c :: cs, taken =>
      match c.video_features.category with
      | none => CatOK maxPer cs taken
      | some k => taken.count k < maxPer ∧ CatOK maxPer cs (k :: taken)

lemma ccGo_sublist (maxPer : ℕ) :
    ∀ (l : List RankingCandidate) (taken : List String),
      List.Sublist (ccGo maxPer l taken) l := by
  intro l
  induction l with
  | nil => intro taken; exact List.Sublist.refl _
  | cons c cs ih =>
      intro taken
      unfold ccGo
      cases hcat : c.video_features.category with
      | none => exact List.Sublist.cons₂ c (ih taken)
      | some k =>
          simp only [hcat]
          split
          · exact List.Sublist.cons₂ c (ih (k :: taken))
          · exact (ih taken).cons c

lemma ccGo_catOK (maxPer : ℕ) :
    ∀ (l : List RankingCandidate) (taken : List String),
      CatOK maxPer (ccGo maxPer l taken) taken := by
  intro l
  induction l with
  | nil => intro taken; trivial
  | cons c cs ih =>
      intro taken
      unfold ccGo
      cases hcat : c.video_features.category with
      | none =>
          unfold CatOK
          simp only [hcat]
          exact ih taken
      | some k =>
          simp only [hcat]
          by_cases hcount : taken.count k < maxPer
          · rw [if_pos hcount]
            unfold CatOK
            simp only [hcat]
            exact ⟨hcount, ih (k :: taken)⟩
          · rw [if_neg hcount]
            exact ih taken

lemma ccGo_fixed (maxPer : ℕ) :
    ∀ (l : List RankingCandidate) (taken : List String),
      CatOK maxPer l taken → ccGo maxPer l taken = l := by
  intro l
  induction l with
  | nil => intro taken _; rfl
  | cons c cs ih =>
      intro taken hok
      unfold ccGo
      unfold CatOK at hok
      cases hcat : c.video_features.category with
      | none =>
          simp only [hcat] at hok ⊢
          exact congrArg (c :: ·) (ih taken hok)
      | some k =>
          simp only [hcat] at hok ⊢
          rw [if_pos hok.1]
          exact congrArg (c :: ·) (ih (k :: taken) hok.2)

/-- C5.  `enforce_diversity` (temporal-diversity filtering followed by the
per-category cap) is idempotent: applying it to its own output returns
that output unchanged, for every candidate list, user history and
embedding table. -/
theorem enforce_diversity_idempotent (cands : List RankingCandidate)
    (hist : List Interaction) (emb : Int → Option (List ℚ)) :
    enforceDiversity (enforceDiversity cands hist emb) hist emb
      = enforceDiversity cands hist emb := by
  unfold enforceDiversity enforceCategoryDiversity enforceTemporalDiversity
  have hsub : List.Sublist
      (ccGo 3 (tdGo ((lastN 20 hist).map (·.video_id)) emb (7/10) cands []) [])
      (tdGo ((lastN 20 hist).map (·.video_id)) emb (7/10) cands []) :=
    ccGo_sublist 3 _ []
  rw [tdGo_fixed _ _ _ _ []
    (fun c hc => tdGo_not_recent _ _ _ cands [] c (hsub.subset hc))
    (dissim_sublist emb (7/10) hsub (List.Sublist.refl [])
      (tdGo_dissim _ _ _ cands []))]
  exact ccGo_fixed 3 _ [] (ccGo_catOK 3 _ [])

/-! ### C4 — LinUCB exploitation score is non-decreasing in N

After `N` updates with reward 1.0 and a fixed context `x`, the arm's
statistics are `A = I + N·x·xᵀ` and `b = N·x`; `select_arms` computes the
exploitation score as `θ·x` for the `θ` solving `Aθ = b`
(`np.linalg.solve`).  The solve is captured relationally: any `θ` with
`Aθ = b` has `θ·x = N·s/(1+N·s)` for `s = x·x > 0`, which is
non-decreasing (indeed increasing) in `N`. -/

/-- The covariance matrix after `N` unit-reward updates on context `x`. -/
def armA (d : ℕ) (x : Fin d → ℚ) (N : ℕ) : Matrix (Fin d) (Fin d) ℚ :=
  1 + (N : ℚ) • Matrix.vecMulVec x x

/-- The reward vector after `N` unit-reward updates on context `x`. -/
def armB (d : ℕ) (x : Fin d → ℚ) (N : ℕ) : Fin d → ℚ := (N : ℚ) • x

lemma addSmulOuter_mulVec {d : ℕ} (x v : Fin d → ℚ) (c : ℚ) :
    ((1 : Matrix (Fin d) (Fin d) ℚ) + c • Matrix.vecMulVec x x).mulVec v
      = v + (c * (x ⬝ᵥ v)) • x := by
  funext i
  simp only [Matrix.mulVec, Matrix.dotProduct, Matrix.add_apply, Matrix.one_apply,
    Matrix.smul_apply, Matrix.vecMulVec_apply, smul_eq_mul, add_mul, ite_mul, one_mul,
    zero_mul, Finset.sum_add_distrib, Finset.sum_ite_eq, Finset.mem_univ, if_true,
    Pi.add_apply, Pi.smul_apply]
  rw [Finset.mul_sum, Finset.sum_mul]
  congr 1
  apply Finset.sum_congr rfl
  intro j _
  ring

lemma armA_mulVec {d : ℕ} (x v : Fin d → ℚ) (N : ℕ) :
    (armA d x N).mulVec v = v + ((N : ℚ) * (x ⬝ᵥ v)) • x :=
  addSmulOuter_mulVec x v (N : ℚ)

lemma dotProduct_self_pos {d : ℕ} {x : Fin d → ℚ} (hx : x ≠ 0) : 0 < x ⬝ᵥ x := by
  rcases lt_or_eq_of_le (Finset.sum_nonneg
    (fun i _ => mul_self_nonneg (x i)) : 0 ≤ x ⬝ᵥ x) with h | h
  · exact h
  · exact absurd (Matrix.dotProduct_self_eq_zero.mp h.symm) hx

/-- Any solution of `armA · θ = armB` has the closed-form exploitation
score `N·s/(1+N·s)`. -/
lemma arm_solution_dot {d : ℕ} (x θ : Fin d → ℚ) (N : ℕ) (hx : x ≠ 0)
    (h : (armA d x N).mulVec θ = armB d x N) :
    θ ⬝ᵥ x = (N : ℚ) * (x ⬝ᵥ x) / (1 + (N : ℚ) * (x ⬝ᵥ x)) := by
  have hs : 0 < x ⬝ᵥ x := dotProduct_self_pos hx
  have hpos : 0 < 1 + (N : ℚ) * (x ⬝ᵥ x) := by positivity
  rw [armA_mulVec] at h
  have hdot := congrArg (fun v => v ⬝ᵥ x) h
  simp only [Matrix.add_dotProduct, Matrix.smul_dotProduct, smul_eq_mul, armB] at hdot
  rw [Matrix.dotProduct_comm x θ] at hdot
  rw [eq_div_iff (ne_of_gt hpos)]
  linear_combination hdot

/-- C4.  (i) Updating the bandit `N+1` times with reward 1.0 and a fixed
feature pair stores exactly `(I + (N+1)·x·xᵀ, (N+1)·x)` for the context
`x`; (ii) the linear system `Aθ = b` the selection step solves always has
a solution; (iii) for every nonzero context, any solutions at update
counts `M ≤ N` give a non-decreasing exploitation score `θ·x`. -/
theorem bandit_exploitation_monotone :
    (∀ (d : ℕ) (alpha : ℚ) (vid : Int) (uf : UserFeatures) (vf : VideoFeatures) (N : ℕ),
      lookupA (banditUpdateN ⟨alpha, []⟩ vid uf vf 1 (N + 1)).arms vid
        = some (armA d (getContext d uf vf) (N + 1), armB d (getContext d uf vf) (N + 1))) ∧
    (∀ (d : ℕ) (x : Fin d → ℚ), x ≠ 0 →
      ∀ N : ℕ, ∃ θ, (armA d x N).mulVec θ = armB d x N) ∧
    (∀ (d : ℕ) (x : Fin d → ℚ), x ≠ 0 →
      ∀ (M N : ℕ) (θM θN : Fin d → ℚ), M ≤ N →
        (armA d x M).mulVec θM = armB d x M →
        (armA d x N).mulVec θN = armB d x N →
        θM ⬝ᵥ x ≤ θN ⬝ᵥ x) := by
  have hA : ∀ (d : ℕ) (x : Fin d → ℚ) (m : ℕ),
      armA d x m + Matrix.vecMulVec x x = armA d x (m + 1) := by
    intro d x m
    unfold armA
    funext i j
    simp only [Matrix.add_apply, Matrix.smul_apply, Matrix.one_apply,
      Matrix.vecMulVec_apply, smul_eq_mul]
    push_cast
    ring
  have hB : ∀ (d : ℕ) (x : Fin d → ℚ) (m : ℕ),
      armB d x m + (1 : ℚ) • x = armB d x (m + 1) := by
    intro d x m
    unfold armB
    funext i
    simp only [Pi.add_apply, Pi.smul_apply, smul_eq_mul]
    push_cast
    ring
  refine ⟨?_, ?_, ?_⟩
  · intro d alpha vid uf vf N
    induction N with
    | zero =>
        unfold banditUpdateN banditUpdateN banditUpdate
        dsimp only
        rw [lookupA_setA_self]
        simp only [lookupA, Option.getD_none]
        rw [← hA d (getContext d uf vf) 0, ← hB d (getContext d uf vf) 0]
        unfold armA armB
        norm_num
    | succ n ih =>
        unfold banditUpdateN banditUpdate
        dsimp only
        rw [ih]
        simp only [Option.getD_some]
        rw [lookupA_setA_self]
        rw [hA d (getContext d uf vf) (n + 1), hB d (getContext d uf vf) (n + 1)]
  · intro d x hx N
    have hs : 0 < x ⬝ᵥ x := dotProduct_self_pos hx
    have hpos : 0 < 1 + (N : ℚ) * (x ⬝ᵥ x) := by positivity
    refine ⟨((N : ℚ) / (1 + (N : ℚ) * (x ⬝ᵥ x))) • x, ?_⟩
    rw [armA_mulVec]
    unfold armB
    rw [Matrix.dotProduct_smul, smul_eq_mul, ← add_smul]
    congr 1
    field_simp
    ring
  · intro d x hx M N θM θN hMN hM hN
    have hs : 0 < x ⬝ᵥ x := dotProduct_self_pos hx
    have hposM : 0 < 1 + (M : ℚ) * (x ⬝ᵥ x) := by positivity
    have hposN : 0 < 1 + (N : ℚ) * (x ⬝ᵥ x) := by positivity
    rw [arm_solution_dot x θM M hx hM, arm_solution_dot x θN N hx hN]
    rw [div_le_div_iff₀ hposM hposN]
    have hcast : (M : ℚ) ≤ (N : ℚ) := by exact_mod_cast hMN
    nlinarith [hs.le, mul_le_mul_of_nonneg_right hcast hs.le]

/-- C4 witness: at `d = 1`, `x = (1)`, the solutions `θ = 0` after 0
updates and `θ = (1/2)` after 1 update give exploitation scores
`0 ≤ 1/2`. -/
theorem bandit_exploitation_monotone_witness :
    Matrix.dotProduct (0 : Fin 1 → ℚ) (fun _ => (1 : ℚ))
      ≤ Matrix.dotProduct (fun _ => (1 : ℚ)/2 : Fin 1 → ℚ) (fun _ => (1 : ℚ)) := by
  have hx : (fun _ => (1 : ℚ)) ≠ (0 : Fin 1 → ℚ) := by
    intro h
    have := congrFun h 0
    norm_num at this
  refine bandit_exploitation_monotone.2.2 1 (fun _ => 1) hx 0 1 0 (fun _ => 1/2)
    (by omega) ?_ ?_
  · rw [armA_mulVec]
    unfold armB
    simp
  · rw [armA_mulVec]
    unfold armB
    funext i
    simp [Matrix.dotProduct, Fin.sum_univ_one]
    norm_num

end Oxygen
